import Mathlib

set_option maxRecDepth 100000

/-!
Shallow embedding of the `chksum-md5` crate: the incremental MD5 hash
engine, the `Digest` value with its hex renderings, and the streaming
reader/writer wrappers.  Bytes are `Nat` values below 256, 32-bit words
are `Nat` values reduced modulo `2 ^ 32`.
-/

namespace Chksum

/-- `2 ^ 32 - 1`, the mask for 32-bit words. -/
def MASK32 : Nat := 4294967295

/-- Addition modulo `2 ^ 32` (wrapping `u32` addition). -/
def add32 (x y : Nat) : Nat := (x + y) % 4294967296

/-- Bitwise complement on 32-bit words. -/
def not32 (x : Nat) : Nat := Nat.xor x MASK32

/-- Left rotation of a 32-bit word by `n` places (`0 < n < 32` in all uses). -/
def rotl32 (x n : Nat) : Nat :=
  Nat.lor (Nat.land (Nat.shiftLeft x n) MASK32) (Nat.shiftRight x (32 - n))

/-- Modelled from the spec: the per-step additive constants of the MD5
compression primitive (`floor(2^32 * |sin(i+1)|)`), part of the external
block-compression transform that the repository consumes from
`chksum_hash_md5` and that the spec directs to reimplement per the
published algorithm definition. -/
def KTable : List Nat :=
  [0xd76aa478, 0xe8c7b756, 0x242070db, 0xc1bdceee,
   0xf57c0faf, 0x4787c62a, 0xa8304613, 0xfd469501,
   0x698098d8, 0x8b44f7af, 0xffff5bb1, 0x895cd7be,
   0x6b901122, 0xfd987193, 0xa679438e, 0x49b40821,
   0xf61e2562, 0xc040b340, 0x265e5a51, 0xe9b6c7aa,
   0xd62f105d, 0x02441453, 0xd8a1e681, 0xe7d3fbc8,
   0x21e1cde6, 0xc33707d6, 0xf4d50d87, 0x455a14ed,
   0xa9e3e905, 0xfcefa3f8, 0x676f02d9, 0x8d2a4c8a,
   0xfffa3942, 0x8771f681, 0x6d9d6122, 0xfde5380c,
   0xa4beea44, 0x4bdecfa9, 0xf6bb4b60, 0xbebfbc70,
   0x289b7ec6, 0xeaa127fa, 0xd4ef3085, 0x04881d05,
   0xd9d4d039, 0xe6db99e5, 0x1fa27cf8, 0xc4ac5665,
   0xf4292244, 0x432aff97, 0xab9423a7, 0xfc93a039,
   0x655b59c3, 0x8f0ccc92, 0xffeff47d, 0x85845dd1,
   0x6fa87e4f, 0xfe2ce6e0, 0xa3014314, 0x4e0811a1,
   0xf7537e82, 0xbd3af235, 0x2ad7d2bb, 0xeb86d391]

/-- Modelled from the spec: the per-step left-rotation amounts of the MD5
compression primitive, per the published algorithm definition. -/
def STable : List Nat :=
  [7, 12, 17, 22, 7, 12, 17, 22, 7, 12, 17, 22, 7, 12, 17, 22,
   5, 9, 14, 20, 5, 9, 14, 20, 5, 9, 14, 20, 5, 9, 14, 20,
   4, 11, 16, 23, 4, 11, 16, 23, 4, 11, 16, 23, 4, 11, 16, 23,
   6, 10, 15, 21, 6, 10, 15, 21, 6, 10, 15, 21, 6, 10, 15, 21]

/-- The four-word (128-bit) running state of the hash. -/
structure State128 where
  a : Nat
  b : Nat
  c : Nat
  d : Nat
deriving DecidableEq, Repr

/-- Modelled from the spec: the fixed initialization vector of the
algorithm (the initial 128-bit state). -/
def initState : State128 :=
  { a := 0x67452301, b := 0xefcdab89, c := 0x98badcfe, d := 0x10325476 }

/-- Little-endian 32-bit word from the first four bytes of a list. -/
def leWord : List Nat → Nat
  | b0 :: b1 :: b2 :: b3 :: _ => b0 + 256 * b1 + 65536 * b2 + 16777216 * b3
  | [b0, b1, b2] => b0 + 256 * b1 + 65536 * b2
  | [b0, b1] => b0 + 256 * b1
  | [b0] => b0
  | [] => 0

/-- Modelled from the spec: one step of the MD5 compression primitive —
round-specific nonlinear function, message-schedule indexing, per-step
constant, addition and rotation, per the published algorithm definition. -/
def md5Step (msg : List Nat) (st : State128) (i : Nat) : State128 :=
  let f :=
    if i < 16 then Nat.lor (Nat.land st.b st.c) (Nat.land (not32 st.b) st.d)
    else if i < 32 then Nat.lor (Nat.land st.d st.b) (Nat.land (not32 st.d) st.c)
    else if i < 48 then Nat.xor (Nat.xor st.b st.c) st.d
    else Nat.xor st.c (Nat.lor st.b (not32 st.d))
  let g :=
    if i < 16 then i
    else if i < 32 then (5 * i + 1) % 16
    else if i < 48 then (3 * i + 5) % 16
    else (7 * i) % 16
  let t := add32 (add32 (add32 st.a f) (KTable.getD i 0)) (leWord (msg.drop (4 * g)))
  { a := st.d, b := add32 st.b (rotl32 t (STable.getD i 0)), c := st.b, d := st.c }

/-- Modelled from the spec: the block-compression primitive — consumes one
64-byte block and the current 128-bit state, runs the four rounds of 16
steps, and adds the result back into the incoming state. -/
def compress (st : State128) (block : List Nat) : State128 :=
  let r := (List.range 64).foldl (md5Step block) st
  { a := add32 st.a r.a, b := add32 st.b r.b, c := add32 st.c r.c, d := add32 st.d r.d }

/-- Fuel-indexed greedy block folding: while at least 64 bytes remain,
compress the next 64-byte block into the state; return the final state and
the remainder (shorter than 64 bytes once the fuel covers the input). -/
def foldBlocksF : Nat → State128 → List Nat → State128 × List Nat
  | 0, st, l => (st, l)
  | fuel + 1, st, l =>
    if 64 ≤ l.length then foldBlocksF fuel (compress st (l.take 64)) (l.drop 64)
    else (st, l)

/-- Modelled from the spec: fold a byte sequence into the running state —
as many full 64-byte blocks as available go through the compression
primitive; the remainder (< 64 bytes) is returned as the new pending
buffer. -/
def foldBlocks (st : State128) (l : List Nat) : State128 × List Nat :=
  foldBlocksF l.length st l

/-- Modelled from the spec: the incremental hash state of
`chksum_hash_md5::Update` (the `inner` field of the crate's `MD5` struct):
128-bit running state, pending sub-block buffer, and total-byte counter. -/
structure MD5 where
  state : State128
  buffer : List Nat
  counter : Nat
deriving DecidableEq, Repr

namespace MD5

/-- `MD5::new` — the fresh hash: initial 128-bit state, empty pending
buffer, zero counter. -/
def new : MD5 := { state := initState, buffer := [], counter := 0 }

/-- Modelled from the spec: `update` — folds the pending bytes plus the
new chunk into as many full 64-byte blocks as available, retains the
remainder in the pending buffer, and adds the chunk length to the
counter.  Embeds `MD5::update`, which delegates to
`chksum_hash_md5::Update::update`. -/
def update (s : MD5) (data : List Nat) : MD5 :=
  let r := foldBlocks s.state (s.buffer ++ data)
  { state := r.1, buffer := r.2, counter := s.counter + data.length }

/-- Modelled from the spec: `reset` — restores the initial state, empties
the pending buffer, zeroes the counter.  Embeds `MD5::reset`. -/
def reset (_ : MD5) : MD5 := new

/-- The standard MD5 padding for a message of `counter` bytes whose
pending buffer holds `bufLen` bytes: a single `0x80` byte, zeros until the
length is 56 mod 64, then the 64-bit little-endian total bit count. -/
def padBytes (bufLen counter : Nat) : List Nat :=
  let bitlen := (counter * 8) % 18446744073709551616
  0x80 :: List.replicate ((119 - bufLen) % 64) 0 ++
    (List.range 8).map (fun k => (Nat.shiftRight bitlen (8 * k)) % 256)

/-- The four bytes of a 32-bit word, little-endian. -/
def wordBytes (w : Nat) : List Nat :=
  [w % 256, (Nat.shiftRight w 8) % 256, (Nat.shiftRight w 16) % 256, (Nat.shiftRight w 24) % 256]

/-- Modelled from the spec: the finalization inside `digest` — pad a copy
of the pending buffer, run the final block(s) through the compression
primitive on a copy of the running state, and serialize the four state
words in little-endian byte order. -/
def finalizeBytes (st : State128) (buffer : List Nat) (counter : Nat) : List Nat :=
  let r := foldBlocks st (buffer ++ padBytes buffer.length counter)
  wordBytes r.1.a ++ wordBytes r.1.b ++ wordBytes r.1.c ++ wordBytes r.1.d

end MD5

/-- The crate's `Digest`: a 16-byte value (bytes are `u8`, embedded as
`Nat`s below 256; the fixed length and the bound are stated as hypotheses
where theorems need them). -/
structure Digest where
  bytes : List Nat
deriving DecidableEq, Repr

namespace Digest

/-- `Digest::new` — wraps a byte array. -/
def new (bytes : List Nat) : Digest := { bytes := bytes }

/-- `Digest::as_bytes` — the digest's contents. -/
def as_bytes (d : Digest) : List Nat := d.bytes

/-- `Digest::into_inner` — consumes the digest, returning the bytes. -/
def into_inner (d : Digest) : List Nat := d.bytes

end Digest

namespace MD5

/-- `MD5::digest` — produces the digest from the current state without
consuming it (`&self` receiver in the source). -/
def digest (s : MD5) : Digest :=
  Digest.new (finalizeBytes s.state s.buffer s.counter)

/-- `MD5::hash` — convenience one-shot: fresh state, one `update`, then
`digest`. -/
def hash (data : List Nat) : Digest := (update new data).digest

end MD5

/-- The module-level `default()` constructor.  Modelled from the spec:
it delegates to `chksum_core::default`, i.e. `MD5::default()` via the
derived `Default`, whose documented behavior matches `new()`. -/
def mdDefault : MD5 := MD5.new

/-- The module-level `new()` constructor (`md5::new`), delegating to
`MD5::new`. -/
def mdNew : MD5 := MD5.new

/-- The module-level `hash` entry point (`md5::hash`), delegating to
`chksum_core::hash`, which allocates a fresh state, dispatches the bytes
in one `update`, and returns the digest. -/
def mdHash (data : List Nat) : Digest := MD5.hash data

/-- The bytes of a string in its natural (UTF-8 code point, ASCII here)
representation, used to state the documented test vectors. -/
def strBytes (s : String) : List Nat := s.data.map Char.toNat

/-- Lowercase hex digit for a value below 16. -/
def hexDigitLower (n : Nat) : Char :=
  if n < 10 then Char.ofNat (48 + n) else Char.ofNat (87 + n)

/-- Uppercase hex digit for a value below 16. -/
def hexDigitUpper (n : Nat) : Char :=
  if n < 10 then Char.ofNat (48 + n) else Char.ofNat (55 + n)

/-- Two lowercase hex digits per byte, in array order. -/
def hexCharsLower : List Nat → List Char
  | [] => []
  | b :: bs => hexDigitLower (b / 16) :: hexDigitLower (b % 16) :: hexCharsLower bs

/-- Two uppercase hex digits per byte, in array order. -/
def hexCharsUpper : List Nat → List Char
  | [] => []
  | b :: bs => hexDigitUpper (b / 16) :: hexDigitUpper (b % 16) :: hexCharsUpper bs

/-- Numeric value of a lowercase hex digit character. -/
def hexVal (c : Char) : Nat :=
  if 97 ≤ c.toNat then c.toNat - 87 else c.toNat - 48

/-- Decode consecutive pairs of hex digit characters back into bytes. -/
def decodePairs : List Char → List Nat
  | c1 :: c2 :: rest => (16 * hexVal c1 + hexVal c2) :: decodePairs rest
  | _ => []

namespace Digest

/-- Modelled from the spec: `Digest::to_hex_lowercase` — each byte
rendered as exactly two lowercase hex digits, concatenated in array order
(the crate delegates to `chksum_hash_md5::Digest::to_hex_lowercase`). -/
def to_hex_lowercase (d : Digest) : String := { data := hexCharsLower d.bytes }

/-- Modelled from the spec: `Digest::to_hex_uppercase` — each byte
rendered as exactly two uppercase hex digits, concatenated in array order
(the crate delegates to `chksum_hash_md5::Digest::to_hex_uppercase`). -/
def to_hex_uppercase (d : Digest) : String := { data := hexCharsUpper d.bytes }

/-- Modelled from the spec: the `Display` implementation — the Display
form equals the lowercase hex form. -/
def display (d : Digest) : String := d.to_hex_lowercase

end Digest

/-- Modelled from the spec: the body of `digest(&self)` — it clones the
pending buffer, counter and running state, finalizes on the copies, and
returns the digest together with the (unchanged) hash state the `&self`
borrow leaves behind. -/
def digestPeek (s : MD5) : Digest × MD5 :=
  let st := s.state
  let buf := s.buffer
  let cnt := s.counter
  (Digest.new (MD5.finalizeBytes st buf cnt), { state := st, buffer := buf, counter := cnt })

/-- Modelled from the spec: the `Reader` streaming wrapper
(`chksum_reader::Reader<R, MD5>`) — the wrapped source (embedded as its
remaining byte sequence) plus one embedded hash state. -/
structure Reader where
  inner : List Nat
  hash : MD5
deriving DecidableEq, Repr

/-- `reader::new` — a reader over `inner` with a fresh hash. -/
def readerNew (inner : List Nat) : Reader := { inner := inner, hash := MD5.new }

/-- `reader::with_hash` — a reader over `inner` seeded with a
caller-supplied hash. -/
def readerWithHash (inner : List Nat) (h : MD5) : Reader := { inner := inner, hash := h }

namespace Reader

/-- Modelled from the spec: one forwarded `read` of at most `n` bytes —
the bytes the inner source actually yields are returned to the caller and
also passed to the embedded hash's update. -/
def read (r : Reader) (n : Nat) : List Nat × Reader :=
  let chunk := r.inner.take n
  (chunk, { inner := r.inner.drop n, hash := r.hash.update chunk })

/-- The reader's `digest()` — the embedded hash's digest, reflecting
exactly the bytes read so far. -/
def digest (r : Reader) : Digest := r.hash.digest

end Reader

/-- Run a sequence of reads of the given sizes, returning the
concatenation of all bytes forwarded to the caller and the final reader. -/
def readRun : Reader → List Nat → List Nat × Reader
  | r, [] => ([], r)
  | r, n :: ns =>
    let p := r.read n
    let q := readRun p.2 ns
    (p.1 ++ q.1, q.2)

/-- Modelled from the spec: the `Writer` streaming wrapper
(`chksum_writer::Writer<W, MD5>`) — the wrapped sink (embedded as the
bytes it has accepted) plus one embedded hash state. -/
structure Writer where
  written : List Nat
  hash : MD5
deriving DecidableEq, Repr

/-- `writer::new` — a writer with a fresh hash. -/
def writerNew : Writer := { written := [], hash := MD5.new }

/-- `writer::with_hash` — a writer seeded with a caller-supplied hash. -/
def writerWithHash (h : MD5) : Writer := { written := [], hash := h }

namespace Writer

/-- Modelled from the spec: one forwarded `write` — the bytes accepted by
the sink are also passed to the embedded hash's update. -/
def write (w : Writer) (data : List Nat) : Writer :=
  { written := w.written ++ data, hash := w.hash.update data }

/-- The writer's `digest()` — the embedded hash's digest. -/
def digest (w : Writer) : Digest := w.hash.digest

end Writer

/-- Run a sequence of writes, returning the final writer. -/
def writeRun (w : Writer) (ds : List (List Nat)) : Writer :=
  ds.foldl Writer.write w

/-! ### Helper lemmas about the block folding and `update` -/

theorem foldBlocksF_short (f : Nat) (st : State128) (l : List Nat) (h : l.length < 64) :
    foldBlocksF f st l = (st, l) := by
  cases f with
  | zero => rfl
  | succ f => simp [foldBlocksF, if_neg (Nat.not_le.mpr h)]

theorem foldBlocksF_congr (f : Nat) : ∀ (g : Nat) (st : State128) (l : List Nat),
    l.length ≤ f → l.length ≤ g → foldBlocksF f st l = foldBlocksF g st l := by
  induction f with
  | zero =>
    intro g st l hf _
    rw [foldBlocksF_short 0 st l (by omega), foldBlocksF_short g st l (by omega)]
  | succ f ih =>
    intro g st l hf hg
    by_cases h64 : 64 ≤ l.length
    · match g with
      | 0 => omega
      | g + 1 =>
        simp only [foldBlocksF, if_pos h64]
        exact ih g _ _ (by simp only [List.length_drop]; omega)
          (by simp only [List.length_drop]; omega)
    · rw [foldBlocksF_short _ st l (by omega), foldBlocksF_short g st l (by omega)]

theorem foldBlocks_short (st : State128) (l : List Nat) (h : l.length < 64) :
    foldBlocks st l = (st, l) :=
  foldBlocksF_short l.length st l h

theorem foldBlocks_step (st : State128) (l : List Nat) (h : 64 ≤ l.length) :
    foldBlocks st l = foldBlocks (compress st (l.take 64)) (l.drop 64) := by
  unfold foldBlocks
  obtain ⟨n, hn⟩ : ∃ n, l.length = n + 1 := ⟨l.length - 1, by omega⟩
  rw [hn]
  simp only [foldBlocksF, if_pos h]
  exact foldBlocksF_congr n _ _ _ (by simp only [List.length_drop]; omega) (Nat.le_refl _)

theorem foldBlocks_append_aux (f : Nat) : ∀ (st : State128) (l y : List Nat), l.length ≤ f →
    foldBlocks st (l ++ y) = foldBlocks (foldBlocks st l).1 ((foldBlocks st l).2 ++ y) := by
  induction f with
  | zero =>
    intro st l y h
    have hl : l = [] := List.eq_nil_of_length_eq_zero (by omega)
    subst hl
    rw [foldBlocks_short st [] (by omega)]
  | succ f ih =>
    intro st l y h
    by_cases h64 : 64 ≤ l.length
    · rw [foldBlocks_step st l h64,
        foldBlocks_step st (l ++ y) (by simp only [List.length_append]; omega),
        List.take_append_of_le_length h64, List.drop_append_of_le_length h64]
      exact ih (compress st (l.take 64)) (l.drop 64) y (by simp only [List.length_drop]; omega)
    · rw [foldBlocks_short st l (by omega)]

theorem foldBlocks_append (st : State128) (l y : List Nat) :
    foldBlocks st (l ++ y) = foldBlocks (foldBlocks st l).1 ((foldBlocks st l).2 ++ y) :=
  foldBlocks_append_aux l.length st l y (Nat.le_refl _)

theorem foldBlocksF_rem (f : Nat) : ∀ (st : State128) (l : List Nat), l.length ≤ f →
    (foldBlocksF f st l).2.length < 64 := by
  induction f with
  | zero =>
    intro st l h
    simp only [foldBlocksF]
    omega
  | succ f ih =>
    intro st l h
    by_cases h64 : 64 ≤ l.length
    · simp only [foldBlocksF, if_pos h64]
      exact ih _ _ (by simp only [List.length_drop]; omega)
    · simp only [foldBlocksF, if_neg h64]
      omega

/-- The pending-buffer invariant: after any `update`, fewer than 64 bytes
are pending. -/
theorem MD5.update_buffer_lt (s : MD5) (data : List Nat) :
    (s.update data).buffer.length < 64 :=
  foldBlocksF_rem (s.buffer ++ data).length s.state (s.buffer ++ data) (Nat.le_refl _)

/-- A zero-length `update` is a no-op on any state satisfying the
pending-buffer invariant. -/
theorem MD5.update_nil (s : MD5) (h : s.buffer.length < 64) : s.update [] = s := by
  simp [MD5.update, foldBlocks_short s.state s.buffer h]

/-- Two successive updates with `x` then `y` reach the same state as one
update with `x ++ y`. -/
theorem MD5.update_append (s : MD5) (x y : List Nat) :
    (s.update x).update y = s.update (x ++ y) := by
  simp only [MD5.update]
  rw [← List.append_assoc, foldBlocks_append s.state (s.buffer ++ x) y]
  simp [List.length_append, Nat.add_assoc]

/-- Folding a list of chunks through `update` equals one update with the
concatenation, for any state satisfying the pending-buffer invariant. -/
theorem MD5.foldl_update (pieces : List (List Nat)) : ∀ s : MD5, s.buffer.length < 64 →
    pieces.foldl MD5.update s = s.update pieces.flatten := by
  induction pieces with
  | nil =>
    intro s h
    simp only [List.foldl_nil, List.flatten_nil]
    exact (MD5.update_nil s h).symm
  | cons p ps ih =>
    intro s h
    simp only [List.foldl_cons, List.flatten_cons]
    rw [ih (s.update p) (MD5.update_buffer_lt s p), MD5.update_append]

/-! ### Helper lemmas about hex rendering -/

theorem hexVal_hexDigitLower : ∀ n, n < 16 → hexVal (hexDigitLower n) = n := by decide

theorem hexDigitUpper_eq_toUpper : ∀ n, n < 16 → hexDigitUpper n = (hexDigitLower n).toUpper := by
  decide

theorem decodePairs_hexCharsLower (bs : List Nat) (h : ∀ b ∈ bs, b < 256) :
    decodePairs (hexCharsLower bs) = bs := by
  induction bs with
  | nil => rfl
  | cons b bs ih =>
    have hb : b < 256 := h b (by simp)
    have hdiv : b / 16 < 16 := Nat.div_lt_of_lt_mul (by omega)
    have hmod : b % 16 < 16 := Nat.mod_lt _ (by omega)
    simp only [hexCharsLower, decodePairs,
      hexVal_hexDigitLower _ hdiv, hexVal_hexDigitLower _ hmod]
    rw [Nat.div_add_mod b 16]
    rw [ih (fun b hb => h b (by simp [hb]))]

theorem hexCharsUpper_eq_map (bs : List Nat) (h : ∀ b ∈ bs, b < 256) :
    hexCharsUpper bs = (hexCharsLower bs).map Char.toUpper := by
  induction bs with
  | nil => rfl
  | cons b bs ih =>
    have hb : b < 256 := h b (by simp)
    have hdiv : b / 16 < 16 := Nat.div_lt_of_lt_mul (by omega)
    have hmod : b % 16 < 16 := Nat.mod_lt _ (by omega)
    simp only [hexCharsLower, hexCharsUpper, List.map_cons,
      hexDigitUpper_eq_toUpper _ hdiv, hexDigitUpper_eq_toUpper _ hmod]
    rw [ih (fun b hb => h b (by simp [hb]))]

theorem hexCharsLower_length (bs : List Nat) :
    (hexCharsLower bs).length = 2 * bs.length := by
  induction bs with
  | nil => rfl
  | cons b bs ih =>
    simp only [hexCharsLower, List.length_cons, ih]
    omega

/-! ### Helper lemmas about the streaming wrappers -/

theorem readRun_hash (ns : List Nat) : ∀ r : Reader, r.hash.buffer.length < 64 →
    (readRun r ns).2.hash = r.hash.update (readRun r ns).1 := by
  induction ns with
  | nil =>
    intro r h
    exact (MD5.update_nil r.hash h).symm
  | cons n ns ih =>
    intro r h
    simp only [readRun, Reader.read]
    rw [ih _ (MD5.update_buffer_lt r.hash (r.inner.take n)), MD5.update_append]

theorem writeRun_spec (ds : List (List Nat)) : ∀ w : Writer, w.hash.buffer.length < 64 →
    (writeRun w ds).hash = w.hash.update ds.flatten ∧
      (writeRun w ds).written = w.written ++ ds.flatten := by
  induction ds with
  | nil =>
    intro w h
    exact ⟨(MD5.update_nil w.hash h).symm, (List.append_nil w.written).symm⟩
  | cons d ds ih =>
    intro w h
    simp only [writeRun, List.foldl_cons, List.flatten_cons]
    have step := ih (w.write d) (MD5.update_buffer_lt w.hash d)
    simp only [writeRun] at step
    refine ⟨?_, ?_⟩
    · rw [step.1]
      simp only [Writer.write]
      rw [MD5.update_append]
    · rw [step.2]
      simp only [Writer.write]
      rw [List.append_assoc]

/-- The documented empty-input digest, in lowercase hex. -/
theorem empty_digest_hex :
    (MD5.digest MD5.new).to_hex_lowercase = "d41d8cd98f00b204e9800998ecf8427e" := by decide

/-! ### The claims -/

/-- Claim C1: for the 12-byte input "example data", the digest produced by
the hash engine — via `MD5::hash`, or via `MD5::new` followed by `update`
then `digest` — renders as the lowercase hex string
"5c71dbb287630d65ca93764c34d9aa0d". -/
theorem example_data_digest :
    (MD5.hash (strBytes "example data")).to_hex_lowercase =
        "5c71dbb287630d65ca93764c34d9aa0d" ∧
      ((MD5.new.update (strBytes "example data")).digest).to_hex_lowercase =
        "5c71dbb287630d65ca93764c34d9aa0d" :=
  ⟨by decide, by decide⟩

/-- Claim C2: calling `digest()` on a freshly created hash (`MD5::new`,
with zero update calls) yields the fixed empty-input digest whose
lowercase hex form is "d41d8cd98f00b204e9800998ecf8427e". -/
theorem fresh_digest_is_empty_digest :
    (MD5.new.digest).to_hex_lowercase = "d41d8cd98f00b204e9800998ecf8427e" := by decide

/-- Claim C3: chunk-invariance — for every byte sequence `X` and every
partition of `X` into non-empty contiguous pieces, feeding the pieces via
successive `update` calls and then calling `digest` yields the same
digest as a single `update` with all of `X` followed by `digest` (stated
for every hash state satisfying the pending-buffer invariant, which every
reachable state satisfies). -/
theorem update_chunk_invariance (s : MD5) (pieces : List (List Nat)) (X : List Nat)
    (hbuf : s.buffer.length < 64) (hpart : pieces.flatten = X)
    (hne : ∀ p ∈ pieces, p ≠ []) :
    (pieces.foldl MD5.update s).digest = (s.update X).digest := by
  subst hpart
  rw [MD5.foldl_update pieces s hbuf]

/-- Witness for claim C3 at a concrete partition. -/
theorem update_chunk_invariance_witness :
    MD5.new.buffer.length < 64 ∧
      ([[1, 2], [3]] : List (List Nat)).flatten = [1, 2, 3] ∧
      (∀ p ∈ ([[1, 2], [3]] : List (List Nat)), p ≠ []) ∧
      (([[1, 2], [3]] : List (List Nat)).foldl MD5.update MD5.new).digest =
        (MD5.new.update [1, 2, 3]).digest :=
  ⟨by decide, by decide, by decide,
    update_chunk_invariance MD5.new [[1, 2], [3]] [1, 2, 3] (by decide) (by decide) (by decide)⟩

/-- Claim C4: `digest()` is a non-mutating read — it leaves the running
state, pending buffer and byte counter unchanged, returns the same value
as the pure digest function, two peeks with no intervening update agree,
and an update between two peeks produces the same second result as if the
first peek had never happened. -/
theorem digest_pure_read (s : MD5) :
    (digestPeek s).2 = s ∧
      (digestPeek s).2.state = s.state ∧
      (digestPeek s).2.buffer = s.buffer ∧
      (digestPeek s).2.counter = s.counter ∧
      (digestPeek s).1 = s.digest ∧
      (digestPeek (digestPeek s).2).1 = (digestPeek s).1 ∧
      (∀ data : List Nat,
        digestPeek ((digestPeek s).2.update data) = digestPeek (s.update data)) :=
  ⟨rfl, rfl, rfl, rfl, rfl, rfl, fun _ => rfl⟩

/-- Claim C5: for every hash state, `reset()` restores the initial state
(initial 128-bit state, empty pending buffer, zero counter), so the next
`digest()` returns the empty-input digest
"d41d8cd98f00b204e9800998ecf8427e". -/
theorem reset_restores_initial (s : MD5) :
    s.reset = MD5.new ∧
      s.reset.state = initState ∧
      s.reset.buffer = [] ∧
      s.reset.counter = 0 ∧
      (s.reset.digest).to_hex_lowercase = "d41d8cd98f00b204e9800998ecf8427e" :=
  ⟨rfl, rfl, rfl, rfl, empty_digest_hex⟩

/-- Claim C6: for every byte sequence forwarded through a `Reader` or
`Writer` wrapper constructed with a fresh hash, the wrapper's `digest()`
equals the digest obtained by feeding those bytes directly to a
standalone hash instance via `update` then `digest` (that is,
`MD5.hash`). -/
theorem wrapper_digest_matches_direct (inner ns : List Nat) (ds : List (List Nat)) :
    (readRun (readerNew inner) ns).2.digest = MD5.hash (readRun (readerNew inner) ns).1 ∧
      (writeRun writerNew ds).digest = MD5.hash (writeRun writerNew ds).written := by
  constructor
  · show (readRun (readerNew inner) ns).2.hash.digest = _
    rw [readRun_hash ns (readerNew inner) (show (0:Nat) < 64 by decide)]
    rfl
  · show (writeRun writerNew ds).hash.digest = _
    have h := writeRun_spec ds writerNew (show (0:Nat) < 64 by decide)
    rw [h.1, h.2]
    rfl

/-- Claim C7: hex round-trip — for every `Digest` (16 bytes, each below
256), `to_hex_lowercase` is a 32-character string of two hex digits per
byte in array order whose decoding reproduces `as_bytes`, and
`to_hex_uppercase` is the character-wise uppercase of
`to_hex_lowercase`. -/
theorem hex_round_trip (d : Digest) (hlen : d.bytes.length = 16)
    (hlt : ∀ b ∈ d.bytes, b < 256) :
    d.to_hex_lowercase.length = 32 ∧
      decodePairs d.to_hex_lowercase.data = d.as_bytes ∧
      d.to_hex_uppercase.data = d.to_hex_lowercase.data.map Char.toUpper := by
  refine ⟨?_, ?_, ?_⟩
  · show (hexCharsLower d.bytes).length = 32
    rw [hexCharsLower_length, hlen]
  · exact decodePairs_hexCharsLower d.bytes hlt
  · exact hexCharsUpper_eq_map d.bytes hlt

/-- Witness for claim C7 at a concrete digest. -/
theorem hex_round_trip_witness :
    (Digest.new [0, 17, 34, 51, 68, 85, 102, 119,
      136, 153, 170, 187, 204, 221, 238, 255]).bytes.length = 16 ∧
      (∀ b ∈ (Digest.new [0, 17, 34, 51, 68, 85, 102, 119,
        136, 153, 170, 187, 204, 221, 238, 255]).bytes, b < 256) ∧
      ((Digest.new [0, 17, 34, 51, 68, 85, 102, 119,
        136, 153, 170, 187, 204, 221, 238, 255]).to_hex_lowercase.length = 32 ∧
        decodePairs (Digest.new [0, 17, 34, 51, 68, 85, 102, 119,
          136, 153, 170, 187, 204, 221, 238, 255]).to_hex_lowercase.data =
          (Digest.new [0, 17, 34, 51, 68, 85, 102, 119,
            136, 153, 170, 187, 204, 221, 238, 255]).as_bytes ∧
        (Digest.new [0, 17, 34, 51, 68, 85, 102, 119,
          136, 153, 170, 187, 204, 221, 238, 255]).to_hex_uppercase.data =
          (Digest.new [0, 17, 34, 51, 68, 85, 102, 119,
            136, 153, 170, 187, 204, 221, 238, 255]).to_hex_lowercase.data.map
            Char.toUpper) :=
  ⟨by decide, by decide, hex_round_trip _ (by decide) (by decide)⟩

/-- Claim C8: two `Digest` values are equal if and only if their 16-byte
contents are equal; a digest carries no identity beyond its bytes. -/
theorem digest_eq_iff_bytes_eq (d1 d2 : Digest) : d1 = d2 ↔ d1.as_bytes = d2.as_bytes := by
  cases d1
  cases d2
  simp [Digest.as_bytes]

/-- Claim C9: `update`, `reset`, `digest` and the digest formatting
operations (`to_hex_lowercase`, `to_hex_uppercase`, `Display`) are total:
for every well-typed input and every hash state they return a result. -/
theorem operations_total (s : MD5) (data : List Nat) (d : Digest) :
    (∃ r, s.update data = r) ∧ (∃ r, s.reset = r) ∧ (∃ r, s.digest = r) ∧
      (∃ r, d.to_hex_lowercase = r) ∧ (∃ r, d.to_hex_uppercase = r) ∧
      (∃ r, d.display = r) :=
  ⟨⟨_, rfl⟩, ⟨_, rfl⟩, ⟨_, rfl⟩, ⟨_, rfl⟩, ⟨_, rfl⟩, ⟨_, rfl⟩⟩

/-- Claim C10: the module-level `default()` constructor produces the same
hash state as `new()`, its fresh digest is the empty-input digest, and it
can be substituted for `new()` without changing any resulting digest. -/
theorem default_matches_new :
    mdDefault = mdNew ∧ mdDefault = MD5.new ∧
      (mdDefault.digest).to_hex_lowercase = "d41d8cd98f00b204e9800998ecf8427e" ∧
      (∀ data : List Nat, (mdDefault.update data).digest = (mdNew.update data).digest) :=
  ⟨rfl, rfl, empty_digest_hex, fun _ => rfl⟩

end Chksum
